import Mathlib

/-! brig: gateway login endpoints, repository loading, remotes / connector contract.

A shallow embedding of

* `gateway/endpoints/login.go` (`getUserName`, `setSession`, `clearSession`,
  `validateUserForPath`, `LoginHandler.ServeHTTP`, `LogoutHandler.ServeHTTP`),
* `repo/init.go` (`LoadFsRepository`),
* the Remotes registry and `Connector.Dial`, whose code is not part of the
  sources at hand and which are modelled from the specification.

Go strings are byte strings; they are modelled as lists of byte values.
-/

/-- A Go `string`: a sequence of bytes. -/
abbrev GoString := List Nat

/-- The bytes of an ASCII literal. -/
def str (s : String) : GoString := s.toList.map Char.toNat

/-- The byte `'/'`. -/
def slash : Nat := 47

/-- The byte `'.'`. -/
def dot : Nat := 46

/-- A Go `map[string]string`: the value stored under each key, if any. -/
abbrev StringMap := GoString → Option GoString

/-- The empty map `make(map[string]string)`. -/
def mapEmpty : StringMap := fun _ => none

/-- Indexing `m[key]`: the zero value `""` when the key is missing. -/
def mapIndex (m : StringMap) (key : GoString) : GoString :=
  (m key).getD []

/-- The assignment `m[key] = value`. -/
def mapSet (m : StringMap) (key value : GoString) : StringMap :=
  fun k => if k = key then some value else m k

/-! ## Go standard library: `strings.HasPrefix`, `path.Clean`, `path.Split`, `path.Dir`, `path.Join` -/

namespace Strings

/-- Go `strings.HasPrefix(s, prefix)`:
`len(s) >= len(prefix) && s[:len(prefix)] == prefix`. -/
def HasPrefix (s pre : GoString) : Bool :=
  decide (s.length ≥ pre.length) && decide (s.take pre.length = pre)

/-- Go `strings.LastIndex(s, "/")` / `bytealg.LastIndexByteString`, scanning
indices `i-1, i-2, ..., 0`; `-1` when the byte does not occur. -/
def lastIndexByteFrom (s : GoString) (c : Nat) : Nat → Int
  | 0 => -1
  | i + 1 => if s.getD i 0 = c then (i : Int) else lastIndexByteFrom s c i

/-- Index of the last occurrence of the byte `c` in `s`, or `-1`. -/
def LastIndexByte (s : GoString) (c : Nat) : Int :=
  lastIndexByteFrom s c s.length

/-- Go `strings.Join(elems, sep)`. -/
def Join : List GoString → GoString → GoString
  | [], _ => []
  | [e], _ => e
  | e :: es, sep => e ++ sep ++ Join es sep

end Strings

namespace Path

/-- The inner loop of the `..` case of `path.Clean`, after the first `out.w--`:
`for out.w > dotdot && out.index(out.w) != '/' { out.w-- }`, as a function of
the current `out.w`. -/
def backtrack (out : GoString) (dotdot : Nat) : Nat → Nat
  | 0 => 0
  | w + 1 =>
    if w + 1 > dotdot ∧ out.getD (w + 1) 0 ≠ slash then backtrack out dotdot w else w + 1

/-- The test `rooted && out.w != 1 || !rooted && out.w != 0` of the default case
of `path.Clean`: a slash is written before the element. -/
def needSlash (rooted : Bool) (w : Nat) : Bool :=
  (rooted && w != 1) || (!rooted && w != 0)

/-- The main loop `for r < n { switch ... }` of Go `path.Clean`.  `rest` is
`path[r:]`, `out` is the contents `buf[:w]` of the lazy buffer, and each
iteration consumes at least one byte of `rest`, so `rest.length` iterations
are enough. -/
def cleanLoop (rooted : Bool) : Nat → GoString → GoString → Nat → GoString
  | 0, _, out, _ => out
  | fuel + 1, rest, out, dotdot =>
    match rest with
    | [] => out
    | c :: t =>
      if c = slash then
        -- empty path element
        cleanLoop rooted fuel t out dotdot
      else if c = dot ∧ (t = [] ∨ t.head? = some slash) then
        -- . element
        cleanLoop rooted fuel t out dotdot
      else if c = dot ∧ t.head? = some dot ∧ (t.tail = [] ∨ t.tail.head? = some slash) then
        -- .. element: remove to last /
        if out.length > dotdot then
          cleanLoop rooted fuel t.tail (out.take (backtrack out dotdot (out.length - 1))) dotdot
        else if !rooted then
          let out1 := (if out.length > 0 then out ++ [slash] else out) ++ [dot, dot]
          cleanLoop rooted fuel t.tail out1 out1.length
        else
          cleanLoop rooted fuel t.tail out dotdot
      else
        -- real path element: add slash if needed, copy element
        let out1 := if needSlash rooted out.length then out ++ [slash] else out
        cleanLoop rooted fuel (rest.dropWhile (fun b => decide (b ≠ slash)))
          (out1 ++ rest.takeWhile (fun b => decide (b ≠ slash))) dotdot

/-- Go `path.Clean`. -/
def Clean (path : GoString) : GoString :=
  if path = [] then [dot]
  else
    let rooted := decide (path.head? = some slash)
    let out :=
      if rooted then cleanLoop true path.length path.tail [slash] 1
      else cleanLoop false path.length path [] 0
    if out.length = 0 then [dot] else out

/-- Go `path.Split`: `i := LastIndex(path, "/"); return path[:i+1], path[i+1:]`. -/
def Split (path : GoString) : GoString × GoString :=
  let i := Strings.LastIndexByte path slash
  (path.take (i + 1).toNat, path.drop (i + 1).toNat)

/-- Go `path.Dir`: `dir, _ := Split(path); return Clean(dir)`. -/
def Dir (path : GoString) : GoString :=
  Clean (Split path).1

/-- Go `path.Join`: empty elements are ignored, the rest is joined with `/`
and cleaned; the empty string when there is no non-empty element. -/
def Join (elem : List GoString) : GoString :=
  let nonEmpty := elem.filter (fun e => decide (e ≠ []))
  if nonEmpty = [] then [] else Clean (Strings.Join nonEmpty [slash])

end Path

/-! ## `gateway/endpoints/login.go` -/

namespace Endpoints

/-- The fields of `http.Cookie` that the package uses. -/
structure Cookie where
  Name : GoString
  Value : GoString
  Path : GoString := []
  MaxAge : Int := 0
  deriving DecidableEq, Repr

/-- The parts of `*http.Request` that the handlers read: the cookies sent with
the request and the request body. -/
structure Request where
  cookies : List Cookie
  Body : GoString
  deriving DecidableEq, Repr

/-- Go `(*http.Request).Cookie(name)`: the first cookie of that name, or
`http.ErrNoCookie` (here `none`). -/
def Request.Cookie (r : Request) (name : GoString) : Option Cookie :=
  r.cookies.find? (fun c => decide (c.Name = name))

/-- The package-level `cookieHandler` (`*securecookie.SecureCookie`), by the two
methods the package calls; `none` stands for a non-nil `error`. -/
structure SecureCookie where
  Encode : GoString → StringMap → Option GoString
  Decode : GoString → GoString → Option StringMap

/-- What a handler does to its `http.ResponseWriter`, in order: cookies set with
`http.SetCookie`, and the calls of the package helpers `jsonifyErrf`
(status code, message) and `jsonifySuccess`, which are defined outside this
file and recorded as calls. -/
inductive Effect where
  | SetCookie (c : Cookie)
  | jsonifyErrf (status : Nat) (msg : String)
  | jsonifySuccess
  deriving DecidableEq, Repr

/-- The `http.ResponseWriter`, as the sequence of effects applied to it. -/
abbrev ResponseWriter := List Effect

/-- Go `http.StatusBadRequest`. -/
def StatusBadRequest : Nat := 400

/-- Go `http.StatusForbidden`. -/
def StatusForbidden : Nat := 403

/-- The `*config.Config` of the gateway, by the two getters the file calls. -/
structure Config where
  String : GoString → GoString
  Strings : GoString → List GoString

/-- The handler `State`; only its field `cfg` is used here. -/
structure State where
  cfg : Config

/-- Embedding of `getUserName`. -/
def getUserName (cookieHandler : SecureCookie) (r : Request) : GoString :=
  match r.Cookie (str "session") with
  | none => []
  | some cookie =>
    match cookieHandler.Decode (str "session") cookie.Value with
    | none => []
    | some cookieValue => mapIndex cookieValue (str "name")

/-- Embedding of `setSession`: when encoding fails a warning is logged and no
cookie is set. -/
def setSession (cookieHandler : SecureCookie) (userName : GoString) (w : ResponseWriter)
    (_r : Request) : ResponseWriter :=
  let value : StringMap := mapSet mapEmpty (str "name") userName
  match cookieHandler.Encode (str "session") value with
  | none => w
  | some encoded =>
    w ++ [Effect.SetCookie { Name := str "session", Value := encoded, Path := str "/" }]

/-- Embedding of `clearSession`. -/
def clearSession (w : ResponseWriter) : ResponseWriter :=
  w ++ [Effect.SetCookie { Name := str "session", Value := str "", Path := str "/", MaxAge := -1 }]

/-- The lookup map built in `validateUserForPath`:
`folders := make(map[string]bool); for _, folder := range ... { folders[folder] = true }`;
a missing key reads as `false`. -/
def buildFolders (list : List GoString) : GoString → Bool :=
  list.foldl (fun m folder => fun key => if key = folder then true else m key) (fun _ => false)

/-- The loop `for curr != "" { ... }` of `validateUserForPath`, with a bound on
the number of iterations; `none` when the bound is used up before the loop
has ended. -/
def validateLoop (folders : GoString → Bool) : Nat → GoString → Option Bool
  | 0, _ => none
  | fuel + 1, curr =>
    if curr = str "" then some false
    else if folders curr then some true
    else
      let next := Path.Dir curr
      if curr = str "/" ∧ next = curr then
        -- We've gone up too much
        some false
      else validateLoop folders fuel next

/-- Embedding of `validateUserForPath`; `fuel` bounds the iterations of its loop. -/
def validateUserForPath (cookieHandler : SecureCookie) (cfg : Config) (fuel : Nat)
    (nodePath : GoString) (r : Request) : Option Bool :=
  if getUserName cookieHandler r = str "" then some false
  else
    let folders := buildFolders (cfg.Strings (str "folders"))
    let nodePath := if !Strings.HasPrefix nodePath (str "/") then str "/" ++ nodePath else nodePath
    validateLoop folders fuel nodePath

/-- The struct `LoginRequest`. -/
structure LoginRequest where
  Username : GoString
  Password : GoString
  deriving DecidableEq, Repr

/-- The outcome of `json.NewDecoder(r.Body).Decode(&loginReq)`, where `loginReq`
is itself a pointer (`*LoginRequest`): a decoding error, or the JSON literal
`null`, for which `encoding/json` sets the pointer to `nil` and reports no
error, or a value stored in the struct. -/
inductive DecodeResult where
  | error
  | null
  | value (loginReq : LoginRequest)
  deriving DecidableEq, Repr

namespace LoginHandler

/-- Embedding of `(*LoginHandler).ServeHTTP`.  The result is `none` when the
handler panics (the field access `loginReq.Username` on a `nil` pointer). -/
def ServeHTTP (cookieHandler : SecureCookie) (decodeJSON : GoString → DecodeResult)
    (lih : State) (w : ResponseWriter) (r : Request) : Option ResponseWriter :=
  match decodeJSON r.Body with
  | .error => some (w ++ [Effect.jsonifyErrf StatusBadRequest "bad json"])
  | .null => none
  | .value loginReq =>
    if loginReq.Username = str "" ∨ loginReq.Password = str "" then
      some (w ++ [Effect.jsonifyErrf StatusBadRequest "empty password or username"])
    else
      let cfgUser := lih.cfg.String (str "auth.user")
      let cfgPass := lih.cfg.String (str "auth.pass")
      if cfgUser ≠ loginReq.Username ∨ cfgPass ≠ loginReq.Password then
        some (w ++ [Effect.jsonifyErrf StatusForbidden "bad credentials"])
      else
        some (setSession cookieHandler cfgUser w r ++ [Effect.jsonifySuccess])

end LoginHandler

namespace LogoutHandler

/-- Embedding of `(*LogoutHandler).ServeHTTP`. -/
def ServeHTTP (cookieHandler : SecureCookie) (_loh : State) (w : ResponseWriter)
    (r : Request) : ResponseWriter :=
  let user := getUserName cookieHandler r
  if user = str "" then w ++ [Effect.jsonifyErrf StatusBadRequest "not logged in"]
  else clearSession w ++ [Effect.jsonifySuccess]

end LogoutHandler

/-- The path `p` whose ancestors are looked up: `nodePath` itself when it
starts with `/`, and `"/" + nodePath` otherwise. -/
def rootedPath (nodePath : GoString) : GoString :=
  if nodePath.head? = some slash then nodePath else slash :: nodePath

/-- The chain `p, path.Dir(p), path.Dir(path.Dir(p)), ...` down to `/`, cut
after `n` steps. -/
def dirChain : Nat → GoString → List GoString
  | 0, p => [p]
  | n + 1, p => if p = str "/" then [p] else p :: dirChain n (Path.Dir p)

end Endpoints

/-! ## `repo/init.go` -/

namespace Repo

/-- The struct `FsRepository`; `Config` holds the loaded `*config.Config`. -/
structure FsRepository (Cfg : Type) where
  Jid : GoString
  Mid : GoString
  Folder : GoString
  UniqueID : GoString
  Password : GoString
  Config : Cfg

/-- What `LoadFsRepository` calls outside this file: `filepath.Abs`, the
package function `LoadConfig`, and the getter `(*config.Config).String`, each
returning a value or an `error`. -/
structure Env (Cfg Err : Type) where
  Abs : GoString → Except Err GoString
  LoadConfig : GoString → Except Err Cfg
  String : Cfg → GoString → Except Err GoString

/-- The keys of the map literal `configValues` in `LoadFsRepository`. -/
def configKeys : List GoString :=
  [str "repository.jid", str "repository.mid", str "repository.uuid", str "repository.password"]

/-- The map literal `configValues`: each key is bound to `""`. -/
def configValues : StringMap :=
  fun k => if k ∈ configKeys then some (str "") else none

/-- The loop `for key := range configValues { configValues[key], err = cfg.String(key); ... }`.
`order` is the order in which `range` yields the keys, which Go leaves
unspecified.  On an error the function returns it at once. -/
def loadLoop {Err : Type} (cfgString : GoString → Except Err GoString) :
    List GoString → StringMap → Except Err StringMap
  | [], m => .ok m
  | key :: keys, m =>
    match cfgString key with
    | .error err => .error err
    | .ok v => loadLoop cfgString keys (mapSet m key v)

/-- Embedding of `LoadFsRepository`; `order` is the iteration order of the
`range` over the keys of `configValues`. -/
def LoadFsRepository {Cfg Err : Type} (env : Env Cfg Err) (order : List GoString)
    (folder : GoString) : Except Err (FsRepository Cfg) :=
  match env.Abs folder with
  | .error err => .error err
  | .ok absFolderPath =>
    match env.LoadConfig (Path.Join [absFolderPath, str ".brig", str "config"]) with
    | .error err => .error err
    | .ok cfg =>
      match loadLoop (env.String cfg) order configValues with
      | .error err => .error err
      | .ok values =>
        .ok {
          Jid := mapIndex values (str "repository.jid")
          Mid := mapIndex values (str "repository.mid")
          Password := mapIndex values (str "repository.password")
          Folder := absFolderPath
          UniqueID := mapIndex values (str "repository.uuid")
          Config := cfg }

end Repo

/-! ## Remotes registry and Connector (modelled from the specification) -/

namespace Remotes

/-- Modelled from the spec: the Remotes registry of §3 and §4.2, whose code is
not among the sources at hand.  The registry is the set of trusted peer
identities (the trust record is the presence flag), kept as the list of its
members. -/
abbrev Registry (Identity : Type) := List Identity

/-- Modelled from the spec: the error of `Insert` "on malformed identity input"
(§4.2); the registry code is not among the sources at hand. -/
inductive RegistryError where
  | MalformedIdentity
  deriving DecidableEq, Repr

/-- Modelled from the spec: `Contains(identity) -> bool` of §4.2 (registry code
missing from the sources): a pure in-memory membership check. -/
def Contains {Identity : Type} [DecidableEq Identity] (r : Registry Identity) (i : Identity) :
    Bool :=
  decide (i ∈ r)

/-- Modelled from the spec: `Insert(identity)` of §4.2 (registry code missing
from the sources): "adds identity if absent; idempotent; returns an error
only on malformed identity input".  An identity that is already present is
left as it is (§3: a no-op, never a duplicate entry); an absent one is added
when it is well-formed. -/
def Insert {Identity : Type} [DecidableEq Identity] (wellFormed : Identity → Bool)
    (r : Registry Identity) (i : Identity) : Except RegistryError (Registry Identity) :=
  if i ∈ r then .ok r
  else if wellFormed i then .ok (i :: r)
  else .error .MalformedIdentity

/-- Modelled from the spec: `Remove(identity)` of §4.2 (registry code missing
from the sources): "removes if present; no-op otherwise", and never an error
(§3). -/
def Remove {Identity : Type} [DecidableEq Identity] (r : Registry Identity) (i : Identity) :
    Except RegistryError (Registry Identity) :=
  .ok (r.filter (fun j => decide (j ≠ i)))

end Remotes

namespace Transfer

/-- Modelled from the spec: the lifecycle states of the Connector (§4.5); the
connector code is not among the sources at hand. -/
inductive ConnectorState where
  | Disconnected
  | Connecting
  | Connected
  | Disconnecting
  deriving DecidableEq, Repr

/-- Modelled from the spec: the error taxonomy of §7, as far as `Dial` uses it
(connector code missing from the sources). -/
inductive DialFailure where
  | StateConflictError
  | UnauthorizedPeerError
  | DialError
  deriving DecidableEq, Repr

/-- Modelled from the spec: the Transport Layer of §4.3 as seen by `Dial`
(layer code missing from the sources): the backend's answer to
`DialChannel(identity)` (`none` for a `DialError`), and the record of the
`DialChannel` calls made so far. -/
structure Layer (Identity Channel : Type) where
  backend : Identity → Option Channel
  dialed : List Identity

/-- Modelled from the spec: `DialChannel(identity) -> (channel, error)` of §4.3
(layer code missing from the sources); the call is recorded. -/
def Layer.DialChannel {Identity Channel : Type} (l : Layer Identity Channel) (i : Identity) :
    Option Channel × Layer Identity Channel :=
  (l.backend i, { l with dialed := l.dialed ++ [i] })

/-- Modelled from the spec: a Session of §3 (session code missing from the
sources): one channel to one remote peer, `Open` or `Closed`. -/
structure Session (Identity Channel : Type) where
  remote : Identity
  channel : Channel
  isOpen : Bool

/-- Modelled from the spec: the Connector of §3 (connector code missing from
the sources): its lifecycle state, the Remotes registry it reads, its
Transport Layer and the Sessions it produced. -/
structure Connector (Identity Channel : Type) where
  state : ConnectorState
  remotes : Remotes.Registry Identity
  layer : Layer Identity Channel
  sessions : List (Session Identity Channel)

/-- Modelled from the spec: `Dial(identity) -> (Session, error)` of §4.5
(connector code missing from the sources): "only valid in Connected state;
consults Remotes Registry via Contains; if absent, fails with
UnauthorizedPeerError without attempting any network I/O; if present, calls
Transport Layer.DialChannel, wraps the resulting channel in a Session,
registers the Session as owned, returns the Session". -/
def Connector.Dial {Identity Channel : Type} [DecidableEq Identity]
    (c : Connector Identity Channel) (i : Identity) :
    Except DialFailure (Session Identity Channel) × Connector Identity Channel :=
  if c.state ≠ ConnectorState.Connected then (.error .StateConflictError, c)
  else if Remotes.Contains c.remotes i = false then (.error .UnauthorizedPeerError, c)
  else
    match c.layer.DialChannel i with
    | (none, layer) => (.error .DialError, { c with layer := layer })
    | (some channel, layer) =>
      let session : Session Identity Channel := { remote := i, channel := channel, isOpen := true }
      (.ok session, { c with layer := layer, sessions := c.sessions ++ [session] })

end Transfer

/-! ## Concrete inputs used by the witnesses and counterexamples below -/

namespace Endpoints

/-- A cookie handler whose `Encode` fails (as `securecookie` does for a value
that is too long) and whose `Decode` rejects every cookie. -/
def failingCookieHandler : SecureCookie where
  Encode := fun _ _ => none
  Decode := fun _ _ => none

/-- A gateway state with `auth.user = "u"`, `auth.pass = "p"` and no folders. -/
def sampleState : State where
  cfg := {
    String := fun key =>
      if key = str "auth.user" then str "u" else if key = str "auth.pass" then str "p" else str ""
    Strings := fun _ => [] }

/-- A JSON decoder that reads the credentials `u` / `p` from every body. -/
def sampleDecodeJSON : GoString → DecodeResult :=
  fun _ => .value { Username := str "u", Password := str "p" }

/-- A JSON decoder for a body that is the JSON literal `null`. -/
def nullDecodeJSON : GoString → DecodeResult :=
  fun _ => .null

/-- A request without cookies. -/
def sampleRequest : Request where
  cookies := []
  Body := str "\x7b\"username\": \"u\", \"password\": \"p\"\x7d"

end Endpoints

namespace Repo

/-- A loaded configuration, as the function from keys to string values. -/
abbrev SampleCfg := GoString → Option GoString

/-- A configuration holding the four repository keys. -/
def sampleCfg : SampleCfg := fun key =>
  if key = str "repository.jid" then some (str "alice@wald.de/laptop")
  else if key = str "repository.mid" then some (str "mid")
  else if key = str "repository.uuid" then some (str "uuid")
  else if key = str "repository.password" then some (str "pw")
  else none

/-- An environment in which `/tmp/alice/.brig/config` holds `sampleCfg`. -/
def sampleEnv : Env SampleCfg String where
  Abs := fun folder => .ok (str "/tmp/" ++ folder)
  LoadConfig := fun p =>
    if p = str "/tmp/alice/.brig/config" then .ok sampleCfg else .error "no such file"
  String := fun cfg key =>
    match cfg key with
    | some v => .ok v
    | none => .error "no such key"

/-- One possible iteration order of the `range` over `configValues`. -/
def sampleOrder : List GoString :=
  [str "repository.mid", str "repository.jid", str "repository.uuid", str "repository.password"]

end Repo

namespace Transfer

/-- A connected connector of peer 1 that trusts peer 2 only; every peer is
reachable over channel 7. -/
def sampleConnector : Connector Nat Nat where
  state := .Connected
  remotes := [2]
  layer := { backend := fun _ => some 7, dialed := [] }
  sessions := []

end Transfer

/-! # Theorems -/

/-! ### Facts about `path.Clean` on rooted paths -/

namespace Path

theorem backtrack_le (out : GoString) (d : Nat) : ∀ w, backtrack out d w ≤ w
  | 0 => by simp [backtrack]
  | w + 1 => by
    unfold backtrack
    split
    · exact Nat.le_succ_of_le (backtrack_le out d w)
    · exact Nat.le_refl _

theorem le_backtrack (out : GoString) (d : Nat) : ∀ w, d ≤ w → d ≤ backtrack out d w
  | 0, h => by simpa [backtrack] using h
  | w + 1, h => by
    unfold backtrack
    split
    · rename_i hc
      exact le_backtrack out d w (by omega)
    · exact h

theorem getLast_dropWhile_ne_slash (rest : GoString)
    (h : rest.getLast? = some slash) :
    (rest.dropWhile (fun b => decide (b ≠ slash))).getLast? = some slash := by
  induction rest with
  | nil => simp at h
  | cons c t ih =>
    by_cases hc : c = slash
    · subst hc
      simpa [List.dropWhile] using h
    · cases t with
      | nil =>
        simp at h
        exact absurd h hc
      | cons b t2 =>
        rw [List.getLast?_cons_cons] at h
        simpa [List.dropWhile, hc] using ih h

theorem cleanLoop_nil (rooted : Bool) (fuel : Nat) (out : GoString) (d : Nat) :
    cleanLoop rooted fuel [] out d = out := by
  cases fuel <;> simp [cleanLoop]

/-- Length bound for the main loop on a rooted path: the loop never writes more
than it has read, and a trailing slash of the input is never written. -/
theorem cleanLoop_length_le : ∀ (fuel : Nat) (rest out : GoString),
    rest.length ≤ fuel → 1 ≤ out.length →
    (cleanLoop true fuel rest out 1).length + (if rest.getLast? = some slash then 1 else 0)
      ≤ out.length + rest.length
        + (if rest = [] ∨ rest.head? = some slash ∨ out.length = 1 then 0 else 1) := by
  intro fuel
  induction fuel with
  | zero =>
    intro rest out hf ho
    have : rest = [] := List.length_eq_zero.mp (Nat.le_zero.mp hf)
    subst this
    simp [cleanLoop]
  | succ fuel ih =>
    intro rest out hf ho
    cases rest with
    | nil => simp [cleanLoop]
    | cons c t =>
      have hft : t.length ≤ fuel := by simpa using hf
      unfold cleanLoop
      simp only []
      split
      · -- empty element
        rename_i hc
        subst hc
        have h1 := ih t out hft ho
        cases t with
        | nil => simp [cleanLoop_nil]
        | cons b t2 =>
          rw [List.getLast?_cons_cons]
          have hg : (if (b :: t2) = [] ∨ (b :: t2).head? = some slash ∨ out.length = 1
              then 0 else 1) ≤ 1 := by
            split <;> omega
          simp only [List.length_cons, List.head?_cons, true_or, or_true, if_true] at h1 hg ⊢
          omega
      · rename_i hc
        split
        · -- . element
          rename_i hd
          have h1 := ih t out hft ho
          obtain ⟨hcd, ht⟩ := hd
          have hb : (t = [] ∨ t.head? = some slash ∨ out.length = 1) := by
            rcases ht with h | h
            · exact Or.inl h
            · exact Or.inr (Or.inl h)
          rw [if_pos hb] at h1
          cases t with
          | nil =>
            simp only [List.getLast?_singleton, Option.some.injEq, hc, if_false]
            simp at h1 ⊢
            omega
          | cons b t2 =>
            rw [List.getLast?_cons_cons]
            simp only [List.length_cons] at h1 ⊢
            omega
        · split
          · -- .. element
            rename_i hd hdd
            obtain ⟨hcd, ht1, ht2⟩ := hdd
            cases t with
            | nil => simp at ht1
            | cons b t2 =>
              simp only [List.tail_cons] at ht2 ⊢
              have hft2 : t2.length ≤ fuel := by
                simp only [List.length_cons] at hft
                omega
              have hb : (t2 = [] ∨ t2.head? = some slash ∨ ∀ n : Nat, n = 1 → False) := by
                rcases ht2 with h | h
                · exact Or.inl h
                · exact Or.inr (Or.inl h)
              have hlast : (if (c :: b :: t2).getLast? = some slash then 1 else 0)
                  ≤ (if t2.getLast? = some slash then 1 else 0) + (0 : Nat) := by
                cases t2 with
                | nil =>
                  simp only [List.head?_cons, Option.some.injEq] at ht1
                  subst ht1
                  simp [slash, dot]
                | cons b2 t3 =>
                  rw [List.getLast?_cons_cons, List.getLast?_cons_cons]
                  omega
              split
              · rename_i hw
                have hbt1 := backtrack_le out 1 (out.length - 1)
                have hbt2 := le_backtrack out 1 (out.length - 1) (by omega)
                have hlen : (out.take (backtrack out 1 (out.length - 1))).length
                    = backtrack out 1 (out.length - 1) := by
                  rw [List.length_take]
                  omega
                have h1 := ih t2 (out.take (backtrack out 1 (out.length - 1))) hft2 (by omega)
                have hb2 : (t2 = [] ∨ t2.head? = some slash
                    ∨ (out.take (backtrack out 1 (out.length - 1))).length = 1) := by
                  rcases ht2 with h | h
                  · exact Or.inl h
                  · exact Or.inr (Or.inl h)
                rw [if_pos hb2, hlen] at h1
                simp only [List.length_cons]
                omega
              · have h1 := ih t2 out hft2 ho
                have hb2 : (t2 = [] ∨ t2.head? = some slash ∨ out.length = 1) := by
                  rcases ht2 with h | h
                  · exact Or.inl h
                  · exact Or.inr (Or.inl h)
                rw [if_pos hb2] at h1
                simp only [Bool.not_true, Bool.false_eq_true, if_false, List.length_cons]
                omega
          · -- real path element
            rename_i hd hdd
            have hsplit : (List.takeWhile (fun b => decide (b ≠ slash)) (c :: t)).length
                + (List.dropWhile (fun b => decide (b ≠ slash)) (c :: t)).length
                = (c :: t).length := by
              rw [← List.length_append, List.takeWhile_append_dropWhile]
            have hdrop : (List.dropWhile (fun b => decide (b ≠ slash)) (c :: t)).length ≤ fuel := by
              have : (List.dropWhile (fun b => decide (b ≠ slash)) (c :: t))
                  = List.dropWhile (fun b => decide (b ≠ slash)) t := by
                simp [List.dropWhile, hc]
              rw [this]
              exact le_trans (List.dropWhile_sublist _).length_le hft
            have hbnd : ∀ l : GoString,
                ((List.dropWhile (fun b => decide (b ≠ slash)) l) = []
                  ∨ (List.dropWhile (fun b => decide (b ≠ slash)) l).head? = some slash) := by
              intro l
              induction l with
              | nil => simp
              | cons x xs ihx =>
                by_cases hx : x = slash
                · right
                  simp [List.dropWhile, hx]
                · simpa [List.dropWhile, hx] using ihx
            have hlast : (if (c :: t).getLast? = some slash then 1 else 0)
                ≤ (if (List.dropWhile (fun b => decide (b ≠ slash)) (c :: t)).getLast?
                    = some slash then 1 else 0) + (0 : Nat) := by
              by_cases hl : (c :: t).getLast? = some slash
              · rw [if_pos hl, if_pos (getLast_dropWhile_ne_slash _ hl)]
              · rw [if_neg hl]
                omega
            have hb2 := hbnd (c :: t)
            by_cases ho1 : out.length = 1
            · have e1 : (if needSlash true out.length = true then out ++ [slash] else out)
                  = out := by
                simp [needSlash, ho1]
              rw [e1]
              have h1 := ih (List.dropWhile (fun b => decide (b ≠ slash)) (c :: t))
                (out ++ List.takeWhile (fun b => decide (b ≠ slash)) (c :: t)) hdrop
                (by rw [List.length_append]; omega)
              have hb3 : ((List.dropWhile (fun b => decide (b ≠ slash)) (c :: t)) = []
                  ∨ (List.dropWhile (fun b => decide (b ≠ slash)) (c :: t)).head? = some slash
                  ∨ (out ++ List.takeWhile (fun b => decide (b ≠ slash)) (c :: t)).length
                      = 1) := by
                rcases hb2 with h | h
                · exact Or.inl h
                · exact Or.inr (Or.inl h)
              rw [if_pos hb3, List.length_append] at h1
              have e2 : ((c :: t) = [] ∨ (c :: t).head? = some slash ∨ out.length = 1) :=
                Or.inr (Or.inr ho1)
              rw [if_pos e2]
              omega
            · have e1 : (if needSlash true out.length = true then out ++ [slash] else out)
                  = out ++ [slash] := by
                simp [needSlash, ho1]
              rw [e1]
              have h1 := ih (List.dropWhile (fun b => decide (b ≠ slash)) (c :: t))
                (out ++ [slash] ++ List.takeWhile (fun b => decide (b ≠ slash)) (c :: t)) hdrop
                (by simp only [List.length_append]; omega)
              have hb3 : ((List.dropWhile (fun b => decide (b ≠ slash)) (c :: t)) = []
                  ∨ (List.dropWhile (fun b => decide (b ≠ slash)) (c :: t)).head? = some slash
                  ∨ (out ++ [slash]
                      ++ List.takeWhile (fun b => decide (b ≠ slash)) (c :: t)).length = 1) := by
                rcases hb2 with h | h
                · exact Or.inl h
                · exact Or.inr (Or.inl h)
              rw [if_pos hb3] at h1
              have e2 : ¬ ((c :: t) = [] ∨ (c :: t).head? = some slash ∨ out.length = 1) := by
                simp [hc, ho1]
              rw [if_neg e2]
              simp only [List.length_append, List.length_singleton] at h1
              omega

/-- On a rooted path the buffer keeps its leading slash through the loop. -/
theorem cleanLoop_head : ∀ (fuel : Nat) (rest out : GoString),
    out.head? = some slash → (cleanLoop true fuel rest out 1).head? = some slash := by
  intro fuel
  induction fuel with
  | zero =>
    intro rest out ho
    simpa [cleanLoop] using ho
  | succ fuel ih =>
    intro rest out ho
    cases rest with
    | nil => simpa [cleanLoop] using ho
    | cons c t =>
      unfold cleanLoop
      simp only []
      split
      · exact ih t out ho
      · split
        · exact ih t out ho
        · split
          · split
            · rename_i hw
              apply ih
              have hbt := le_backtrack out 1 (out.length - 1) (by omega)
              cases out with
              | nil => simp at ho
              | cons x xs =>
                obtain ⟨k, hk⟩ : ∃ k, backtrack (x :: xs) 1 ((x :: xs).length - 1) = k + 1 :=
                  ⟨backtrack (x :: xs) 1 ((x :: xs).length - 1) - 1, by omega⟩
                rw [hk]
                simpa using ho
            · simp only [Bool.not_true, Bool.false_eq_true, if_false]
              exact ih _ out ho
          · apply ih
            cases out with
            | nil => simp at ho
            | cons x xs =>
              split <;> simpa using ho

theorem Clean_root : Clean [slash] = [slash] := by decide

/-- The result of `Clean` on a rooted path is rooted and no longer than its
argument; it is strictly shorter when the argument has a trailing slash and
is not the root itself. -/
theorem Clean_rooted (t : GoString) :
    (Clean (slash :: t)).head? = some slash
      ∧ (Clean (slash :: t)).length + (if t.getLast? = some slash then 1 else 0)
          ≤ (slash :: t).length := by
  have hh := cleanLoop_head (t.length + 1) t [slash] rfl
  have hl := cleanLoop_length_le (t.length + 1) t [slash] (Nat.le_succ _) (by simp)
  have hne : (cleanLoop true (t.length + 1) t [slash] 1).length ≠ 0 := by
    intro h0
    rw [List.length_eq_zero.mp h0] at hh
    simp at hh
  have hC : Clean (slash :: t) = cleanLoop true (t.length + 1) t [slash] 1 := by
    simp [Clean, hne]
  rw [hC]
  refine ⟨hh, ?_⟩
  have e : (t = [] ∨ t.head? = some slash ∨ [slash].length = 1) := Or.inr (Or.inr rfl)
  rw [if_pos e] at hl
  simp only [List.length_singleton, List.length_cons, List.length_nil] at hl ⊢
  omega

end Path

namespace Strings

theorem lastIndexByteFrom_spec (s : GoString) (c : Nat) : ∀ i : Nat,
    lastIndexByteFrom s c i = -1
      ∨ ∃ j : Nat, lastIndexByteFrom s c i = (j : Int) ∧ j < i ∧ s.getD j 0 = c
  | 0 => Or.inl rfl
  | i + 1 => by
    unfold lastIndexByteFrom
    split
    · rename_i h
      exact Or.inr ⟨i, rfl, Nat.lt_succ_self i, h⟩
    · rcases lastIndexByteFrom_spec s c i with h | ⟨j, h1, h2, h3⟩
      · exact Or.inl h
      · exact Or.inr ⟨j, h1, Nat.lt_succ_of_lt h2, h3⟩

theorem lastIndexByteFrom_rooted (c : Nat) (t : GoString) : ∀ i : Nat,
    lastIndexByteFrom (c :: t) c (i + 1) ≠ -1
  | 0 => by simp [lastIndexByteFrom]
  | i + 1 => by
    unfold lastIndexByteFrom
    split
    · exact fun h => absurd h (by omega)
    · exact lastIndexByteFrom_rooted c t i

end Strings

namespace Path

/-- The directory part of a rooted path starts and ends with a slash and is a
prefix of the path. -/
theorem Split_rooted (t : GoString) :
    ∃ d : GoString, (Split (slash :: t)).1 = slash :: d
      ∧ (slash :: d).length ≤ (slash :: t).length
      ∧ (d = [] ∨ d.getLast? = some slash) := by
  have h1 := Strings.lastIndexByteFrom_spec (slash :: t) slash (slash :: t).length
  have h2 := Strings.lastIndexByteFrom_rooted slash t t.length
  rcases h1 with h1 | ⟨j, hj, hlt, hget⟩
  · exact absurd h1 h2
  · have hS : (Split (slash :: t)).1 = (slash :: t).take (j + 1) := by
      simp only [Split, Strings.LastIndexByte, hj]
      congr 1
    rw [hS, List.take_succ_cons]
    refine ⟨t.take j, rfl, ?_, ?_⟩
    · simp only [List.length_cons, List.length_take]
      omega
    · cases j with
      | zero => left; simp
      | succ k =>
        right
        simp only [List.length_cons] at hlt
        have hk : k < t.length := by omega
        simp only [List.getD_cons_succ] at hget
        rw [List.getLast?_take]
        simp only [Nat.add_sub_cancel, if_neg (Nat.succ_ne_zero k)]
        rw [List.getD_eq_getElem?_getD] at hget
        rw [List.getElem?_eq_getElem hk] at hget ⊢
        simp only [Option.getD_some] at hget
        simp [hget]

/-- Facts about `Dir` that bound the walk towards the root: the parent of a
rooted path is rooted, and shorter unless the path is the root. -/
theorem Dir_rooted (t : GoString) :
    ∃ d : GoString, Dir (slash :: t) = slash :: d ∧ (t ≠ [] → d.length < t.length) := by
  obtain ⟨d, hd, hlen, hlast⟩ := Split_rooted t
  have hc := Clean_rooted d
  unfold Dir
  rw [hd]
  obtain ⟨hh, hl⟩ := hc
  cases hC : Clean (slash :: d) with
  | nil => rw [hC] at hh; simp at hh
  | cons x xs =>
    rw [hC] at hh hl
    simp only [List.head?_cons, Option.some.injEq] at hh
    subst hh
    refine ⟨xs, rfl, ?_⟩
    intro hne
    rcases hlast with h0 | h1
    · subst h0
      rw [Clean_root] at hC
      simp only [List.cons.injEq, true_and] at hC
      subst hC
      exact List.length_pos.mpr hne
    · rw [if_pos h1] at hl
      simp only [List.length_cons] at hl hlen
      omega

theorem Dir_root : Dir [slash] = [slash] := by decide

end Path

namespace Endpoints

theorem str_slash : str "/" = [slash] := by decide

theorem str_empty : str "" = [] := by decide

theorem buildFolders_foldl (list : List GoString) (init : GoString → Bool) (key : GoString) :
    list.foldl (fun m folder => fun key => if key = folder then true else m key) init key
      = (decide (key ∈ list) || init key) := by
  induction list generalizing init with
  | nil => simp
  | cons f fs ih =>
    rw [List.foldl_cons, ih]
    by_cases h : key = f
    · simp [h]
    · simp [h]

/-- The lookup map answers membership in the configured list. -/
theorem buildFolders_eq (list : List GoString) (key : GoString) :
    buildFolders list key = decide (key ∈ list) := by
  unfold buildFolders
  rw [buildFolders_foldl]
  simp

theorem HasPrefix_slash (s : GoString) :
    Strings.HasPrefix s (str "/") = decide (s.head? = some slash) := by
  rw [str_slash]
  cases s with
  | nil => simp [Strings.HasPrefix]
  | cons c t => simp [Strings.HasPrefix]

theorem rootedPath_eq (nodePath : GoString) :
    (if !Strings.HasPrefix nodePath (str "/") then str "/" ++ nodePath else nodePath)
      = rootedPath nodePath := by
  rw [HasPrefix_slash, str_slash]
  unfold rootedPath
  by_cases h : nodePath.head? = some slash <;> simp [h]

theorem rootedPath_cons (nodePath : GoString) :
    ∃ t, rootedPath nodePath = slash :: t ∧ t.length ≤ nodePath.length := by
  unfold rootedPath
  cases nodePath with
  | nil => exact ⟨[], by simp⟩
  | cons c t =>
    by_cases h : c = slash
    · subst h
      exact ⟨t, by simp⟩
    · exact ⟨c :: t, by simp [h]⟩

/-- The loop of `validateUserForPath` on a rooted path ends within
`length + 1` iterations; it visits the chain of ancestors, which ends at `/`. -/
theorem validateLoop_rooted (folders : GoString → Bool) : ∀ (n : Nat) (t : GoString) (fuel : Nat),
    t.length ≤ n → n + 1 ≤ fuel →
    validateLoop folders fuel (slash :: t) = some ((dirChain n (slash :: t)).any folders)
      ∧ (dirChain n (slash :: t)).getLast? = some [slash] := by
  intro n
  induction n with
  | zero =>
    intro t fuel ht hf
    have : t = [] := List.length_eq_zero.mp (Nat.le_zero.mp ht)
    subst this
    obtain ⟨f, rfl⟩ : ∃ f, fuel = f + 1 := ⟨fuel - 1, by omega⟩
    simp only [validateLoop, dirChain, str_slash, str_empty, Path.Dir_root]
    by_cases hc : folders [slash] = true <;> simp [hc]
  | succ n ih =>
    intro t fuel ht hf
    obtain ⟨f, rfl⟩ : ∃ f, fuel = f + 1 := ⟨fuel - 1, by omega⟩
    by_cases h0 : t = []
    · subst h0
      simp only [validateLoop, dirChain, str_slash, str_empty, Path.Dir_root]
      by_cases hc : folders [slash] = true <;> simp [hc]
    · obtain ⟨d, hd, hlt⟩ := Path.Dir_rooted t
      have hlt := hlt h0
      have hih := ih d f (by omega) (by omega)
      have hne : (slash :: t) ≠ [slash] := by simpa using h0
      simp only [validateLoop, dirChain, str_slash, str_empty, hd, if_neg hne]
      obtain ⟨h1, h2⟩ := hih
      constructor
      · by_cases hc : folders (slash :: t) = true
        · simp [hc]
        · simp [hc, h0, h1]
      · cases hch : dirChain n (slash :: d) with
        | nil => rw [hch] at h2; simp at h2
        | cons x xs =>
          rw [hch] at h2
          rw [List.getLast?_cons_cons]
          exact h2

end Endpoints

namespace Endpoints

/-- C4: `validateUserForPath` returns (with enough loop iterations allowed, which
`len(nodePath) + 2` always are) `false` for a request whose `getUserName` is
empty, and otherwise `true` exactly when some element of the chain
`p, Dir(p), Dir(Dir(p)), ...`, which ends at `/`, is among the configured
`folders`, where `p` is `nodePath` when it starts with `/` and `"/" + nodePath`
otherwise.  Hence a configured `/` allows every `nodePath`, and the empty
`nodePath` is treated as `/`. -/
theorem validateUserForPath_decides (cookieHandler : SecureCookie) (cfg : Config)
    (nodePath : GoString) (r : Request) (k : Nat) :
    (dirChain (rootedPath nodePath).length (rootedPath nodePath)).getLast? = some (str "/")
    ∧ validateUserForPath cookieHandler cfg (nodePath.length + 2 + k) nodePath r
        = some (decide (getUserName cookieHandler r ≠ str "")
            && (dirChain (rootedPath nodePath).length (rootedPath nodePath)).any
                (fun q => decide (q ∈ cfg.Strings (str "folders"))))
    ∧ (getUserName cookieHandler r = str "" →
        validateUserForPath cookieHandler cfg (nodePath.length + 2 + k) nodePath r = some false)
    ∧ (getUserName cookieHandler r ≠ str "" → str "/" ∈ cfg.Strings (str "folders") →
        validateUserForPath cookieHandler cfg (nodePath.length + 2 + k) nodePath r = some true)
    ∧ rootedPath (str "") = str "/" := by
  obtain ⟨t, ht, hlen⟩ := rootedPath_cons nodePath
  have hloop := validateLoop_rooted (buildFolders (cfg.Strings (str "folders")))
    (rootedPath nodePath).length t (nodePath.length + 2 + k)
    (by rw [ht]; simp) (by rw [ht]; simp only [List.length_cons]; omega)
  rw [← ht] at hloop
  obtain ⟨hrun, hlast⟩ := hloop
  have hfold : buildFolders (cfg.Strings (str "folders"))
      = fun q => decide (q ∈ cfg.Strings (str "folders")) :=
    funext (buildFolders_eq _)
  rw [hfold] at hrun
  have hmain : validateUserForPath cookieHandler cfg (nodePath.length + 2 + k) nodePath r
      = some (decide (getUserName cookieHandler r ≠ str "")
          && (dirChain (rootedPath nodePath).length (rootedPath nodePath)).any
              (fun q => decide (q ∈ cfg.Strings (str "folders")))) := by
    unfold validateUserForPath
    by_cases hu : getUserName cookieHandler r = str ""
    · simp [hu]
    · simp only [if_neg hu, rootedPath_eq, hfold, hrun]
      simp [hu]
  refine ⟨by rw [str_slash]; exact hlast, hmain, ?_, ?_, by decide⟩
  · intro hu
    rw [hmain]
    simp [hu]
  · intro hu hroot
    rw [hmain]
    have hmem : [slash] ∈ dirChain (rootedPath nodePath).length (rootedPath nodePath) :=
      List.mem_of_getLast?_eq_some hlast
    have hany : (dirChain (rootedPath nodePath).length (rootedPath nodePath)).any
        (fun q => decide (q ∈ cfg.Strings (str "folders"))) = true := by
      rw [List.any_eq_true]
      exact ⟨[slash], hmem, by rw [← str_slash]; simpa using hroot⟩
    rw [hany]
    simp [hu]

/-- C7: `LogoutHandler.ServeHTTP` answers 400 "not logged in" and sets no cookie
when the request has no session cookie or one that fails to decode, and
whenever `getUserName` returns `""`; for every other request it sets the
cookie `session` with empty value, path `/` and `MaxAge` -1, and answers
success. -/
theorem LogoutHandler_ServeHTTP_cases (cookieHandler : SecureCookie) (loh : State)
    (w : ResponseWriter) (r : Request) :
    (r.Cookie (str "session") = none →
        LogoutHandler.ServeHTTP cookieHandler loh w r
          = w ++ [Effect.jsonifyErrf 400 "not logged in"])
    ∧ (∀ cookie, r.Cookie (str "session") = some cookie →
        cookieHandler.Decode (str "session") cookie.Value = none →
        LogoutHandler.ServeHTTP cookieHandler loh w r
          = w ++ [Effect.jsonifyErrf 400 "not logged in"])
    ∧ (getUserName cookieHandler r = str "" →
        LogoutHandler.ServeHTTP cookieHandler loh w r
          = w ++ [Effect.jsonifyErrf 400 "not logged in"])
    ∧ (getUserName cookieHandler r ≠ str "" →
        LogoutHandler.ServeHTTP cookieHandler loh w r
          = w ++ [Effect.SetCookie
                    { Name := str "session", Value := str "", Path := str "/", MaxAge := -1 },
                  Effect.jsonifySuccess]) := by
  have h3 : getUserName cookieHandler r = str "" →
      LogoutHandler.ServeHTTP cookieHandler loh w r
        = w ++ [Effect.jsonifyErrf 400 "not logged in"] := by
    intro hu
    simp [LogoutHandler.ServeHTTP, hu, StatusBadRequest]
  refine ⟨?_, ?_, h3, ?_⟩
  · intro hc
    apply h3
    simp [getUserName, hc, str_empty]
  · intro cookie hc hd
    apply h3
    simp [getUserName, hc, hd, str_empty]
  · intro hu
    simp [LogoutHandler.ServeHTTP, hu, clearSession]

end Endpoints

namespace Endpoints

/-- Evaluation of `LoginHandler.ServeHTTP` with matching credentials and a
cookie handler whose `Encode` fails: the handler answers success and sets no
cookie. -/
theorem LoginHandler_ServeHTTP_encode_failure :
    LoginHandler.ServeHTTP failingCookieHandler sampleDecodeJSON sampleState [] sampleRequest
      = some [Effect.jsonifySuccess] := by
  decide

/-- Evaluation of `LoginHandler.ServeHTTP` on a body that is the JSON literal
`null`: the handler panics and writes no answer. -/
theorem LoginHandler_ServeHTTP_null_body :
    LoginHandler.ServeHTTP failingCookieHandler nullDecodeJSON sampleState []
      { cookies := [], Body := str "null" } = none := by
  decide

/-- C6 (as stated) fails: with matching, non-empty credentials and a cookie
handler whose `Encode` returns an error, it is not the case that
"the handler sets a session cookie and answers success if and only if the
body decodes and the credentials are non-empty and match". -/
theorem LoginHandler_ServeHTTP_not_iff :
    ¬ (((∃ c, Effect.SetCookie c ∈
            (LoginHandler.ServeHTTP failingCookieHandler sampleDecodeJSON sampleState []
              sampleRequest).getD [])
          ∧ Effect.jsonifySuccess ∈
            (LoginHandler.ServeHTTP failingCookieHandler sampleDecodeJSON sampleState []
              sampleRequest).getD [])
        ↔ (∃ q, sampleDecodeJSON sampleRequest.Body = .value q
            ∧ q.Username ≠ str "" ∧ q.Password ≠ str ""
            ∧ q.Username = sampleState.cfg.String (str "auth.user")
            ∧ q.Password = sampleState.cfg.String (str "auth.pass"))) := by
  intro h
  have hr : (∃ q, sampleDecodeJSON sampleRequest.Body = .value q
      ∧ q.Username ≠ str "" ∧ q.Password ≠ str ""
      ∧ q.Username = sampleState.cfg.String (str "auth.user")
      ∧ q.Password = sampleState.cfg.String (str "auth.pass")) :=
    ⟨{ Username := str "u", Password := str "p" }, rfl, by decide, by decide, by decide, by decide⟩
  obtain ⟨⟨c, hc⟩, _⟩ := h.mpr hr
  have he : LoginHandler.ServeHTTP failingCookieHandler sampleDecodeJSON sampleState []
      sampleRequest = some [Effect.jsonifySuccess] := by decide
  rw [he] at hc
  simp at hc

end Endpoints

namespace Endpoints

/-- C6 (amended): for a body that does not decode to the JSON literal `null`,
`LoginHandler.ServeHTTP` returns; it answers success if and only if the body
decodes, `Username` and `Password` are both non-empty and equal to the
configured `auth.user` and `auth.pass`; it then sets the session cookie when
the cookie handler encodes the session value, and sets no cookie (and still
answers success) when encoding fails; otherwise it sets no cookie and
answers 400 "bad json", 400 "empty password or username" or 403
"bad credentials".  When the configured `auth.user` or `auth.pass` is empty,
no request is answered with success or given a cookie. -/
theorem LoginHandler_ServeHTTP_cases (cookieHandler : SecureCookie)
    (decodeJSON : GoString → DecodeResult) (lih : State) (w : ResponseWriter) (r : Request) :
    (decodeJSON r.Body ≠ .null →
        ∃ new, LoginHandler.ServeHTTP cookieHandler decodeJSON lih w r = some (w ++ new))
    ∧ (decodeJSON r.Body = .error →
        LoginHandler.ServeHTTP cookieHandler decodeJSON lih w r
          = some (w ++ [Effect.jsonifyErrf 400 "bad json"]))
    ∧ (∀ q, decodeJSON r.Body = .value q →
        (q.Username = str "" ∨ q.Password = str "" →
          LoginHandler.ServeHTTP cookieHandler decodeJSON lih w r
            = some (w ++ [Effect.jsonifyErrf 400 "empty password or username"]))
        ∧ (q.Username ≠ str "" → q.Password ≠ str "" →
            (lih.cfg.String (str "auth.user") ≠ q.Username
              ∨ lih.cfg.String (str "auth.pass") ≠ q.Password) →
          LoginHandler.ServeHTTP cookieHandler decodeJSON lih w r
            = some (w ++ [Effect.jsonifyErrf 403 "bad credentials"]))
        ∧ (q.Username ≠ str "" → q.Password ≠ str "" →
            lih.cfg.String (str "auth.user") = q.Username →
            lih.cfg.String (str "auth.pass") = q.Password →
          (∀ encoded,
            cookieHandler.Encode (str "session")
                (mapSet mapEmpty (str "name") (lih.cfg.String (str "auth.user"))) = some encoded →
            LoginHandler.ServeHTTP cookieHandler decodeJSON lih w r
              = some (w ++ [Effect.SetCookie
                              { Name := str "session", Value := encoded, Path := str "/" },
                            Effect.jsonifySuccess]))
          ∧ (cookieHandler.Encode (str "session")
                (mapSet mapEmpty (str "name") (lih.cfg.String (str "auth.user"))) = none →
            LoginHandler.ServeHTTP cookieHandler decodeJSON lih w r
              = some (w ++ [Effect.jsonifySuccess]))))
    ∧ (∀ new, LoginHandler.ServeHTTP cookieHandler decodeJSON lih w r = some (w ++ new) →
        (Effect.jsonifySuccess ∈ new ↔
          ∃ q, decodeJSON r.Body = .value q ∧ q.Username ≠ str "" ∧ q.Password ≠ str ""
            ∧ q.Username = lih.cfg.String (str "auth.user")
            ∧ q.Password = lih.cfg.String (str "auth.pass"))
        ∧ ((∃ c, Effect.SetCookie c ∈ new) ↔
          ∃ q, decodeJSON r.Body = .value q ∧ q.Username ≠ str "" ∧ q.Password ≠ str ""
            ∧ q.Username = lih.cfg.String (str "auth.user")
            ∧ q.Password = lih.cfg.String (str "auth.pass")
            ∧ ∃ encoded, cookieHandler.Encode (str "session")
                (mapSet mapEmpty (str "name") (lih.cfg.String (str "auth.user"))) = some encoded))
    ∧ (lih.cfg.String (str "auth.user") = str "" ∨ lih.cfg.String (str "auth.pass") = str "" →
        ∀ new, LoginHandler.ServeHTTP cookieHandler decodeJSON lih w r = some (w ++ new) →
          Effect.jsonifySuccess ∉ new ∧ ∀ c, Effect.SetCookie c ∉ new) := by
  cases hdec : decodeJSON r.Body with
  | error =>
    simp [LoginHandler.ServeHTTP, hdec, StatusBadRequest]
  | null =>
    simp [LoginHandler.ServeHTTP, hdec]
  | value q =>
    by_cases he : q.Username = str "" ∨ q.Password = str ""
    · have hrun : LoginHandler.ServeHTTP cookieHandler decodeJSON lih w r
          = some (w ++ [Effect.jsonifyErrf 400 "empty password or username"]) := by
        simp only [LoginHandler.ServeHTTP, hdec, if_pos he, StatusBadRequest]
      rw [hrun]
      have hne : ¬ (q.Username ≠ str "" ∧ q.Password ≠ str "") := by
        intro h
        rcases he with h1 | h1
        · exact h.1 h1
        · exact h.2 h1
      refine ⟨fun _ => ⟨_, rfl⟩, fun h => by simp at h, ?_, ?_, ?_⟩
      · intro q2 hq
        simp only [DecodeResult.value.injEq] at hq
        subst hq
        refine ⟨fun _ => rfl, fun h1 h2 => absurd ⟨h1, h2⟩ hne, fun h1 h2 => absurd ⟨h1, h2⟩ hne⟩
      · intro new hnew
        simp only [Option.some.injEq, List.append_cancel_left_eq] at hnew
        subst hnew
        constructor
        · constructor
          · intro h; simp at h
          · rintro ⟨q2, hq, h1, h2, _⟩
            simp only [DecodeResult.value.injEq] at hq
            subst hq
            exact absurd ⟨h1, h2⟩ hne
        · constructor
          · rintro ⟨c, h⟩; simp at h
          · rintro ⟨q2, hq, h1, h2, _⟩
            simp only [DecodeResult.value.injEq] at hq
            subst hq
            exact absurd ⟨h1, h2⟩ hne
      · intro _ new hnew
        simp only [Option.some.injEq, List.append_cancel_left_eq] at hnew
        subst hnew
        simp
    · have hu : q.Username ≠ str "" := fun h => he (Or.inl h)
      have hp : q.Password ≠ str "" := fun h => he (Or.inr h)
      by_cases hm : lih.cfg.String (str "auth.user") ≠ q.Username
          ∨ lih.cfg.String (str "auth.pass") ≠ q.Password
      · have hrun : LoginHandler.ServeHTTP cookieHandler decodeJSON lih w r
            = some (w ++ [Effect.jsonifyErrf 403 "bad credentials"]) := by
          simp only [LoginHandler.ServeHTTP, hdec, if_neg he, if_pos hm, StatusForbidden]
        rw [hrun]
        have hne : ¬ (q.Username = lih.cfg.String (str "auth.user")
            ∧ q.Password = lih.cfg.String (str "auth.pass")) := by
          intro h
          rcases hm with h1 | h1
          · exact h1 h.1.symm
          · exact h1 h.2.symm
        refine ⟨fun _ => ⟨_, rfl⟩, fun h => by simp at h, ?_, ?_, ?_⟩
        · intro q2 hq
          simp only [DecodeResult.value.injEq] at hq
          subst hq
          refine ⟨fun h => absurd h he, fun _ _ _ => rfl,
            fun _ _ h1 h2 => absurd ⟨h1.symm, h2.symm⟩ hne⟩
        · intro new hnew
          simp only [Option.some.injEq, List.append_cancel_left_eq] at hnew
          subst hnew
          constructor
          · constructor
            · intro h; simp at h
            · rintro ⟨q2, hq, _, _, h1, h2⟩
              simp only [DecodeResult.value.injEq] at hq
              subst hq
              exact absurd ⟨h1, h2⟩ hne
          · constructor
            · rintro ⟨c, h⟩; simp at h
            · rintro ⟨q2, hq, _, _, h1, h2, _⟩
              simp only [DecodeResult.value.injEq] at hq
              subst hq
              exact absurd ⟨h1, h2⟩ hne
        · intro _ new hnew
          simp only [Option.some.injEq, List.append_cancel_left_eq] at hnew
          subst hnew
          simp
      · have hcu : lih.cfg.String (str "auth.user") = q.Username := by
          by_contra h
          exact hm (Or.inl h)
        have hcp : lih.cfg.String (str "auth.pass") = q.Password := by
          by_contra h
          exact hm (Or.inr h)
        have hrun : LoginHandler.ServeHTTP cookieHandler decodeJSON lih w r
            = some (setSession cookieHandler (lih.cfg.String (str "auth.user")) w r
                ++ [Effect.jsonifySuccess]) := by
          simp only [LoginHandler.ServeHTTP, hdec, if_neg he, if_neg hm]
        rw [hrun]
        have hcond : ∃ q2, DecodeResult.value q = DecodeResult.value q2
            ∧ q2.Username ≠ str "" ∧ q2.Password ≠ str ""
            ∧ q2.Username = lih.cfg.String (str "auth.user")
            ∧ q2.Password = lih.cfg.String (str "auth.pass") :=
          ⟨q, rfl, hu, hp, hcu.symm, hcp.symm⟩
        have hcfg : ¬ (lih.cfg.String (str "auth.user") = str ""
            ∨ lih.cfg.String (str "auth.pass") = str "") := by
          rw [hcu, hcp]
          exact he
        cases henc : cookieHandler.Encode (str "session")
            (mapSet mapEmpty (str "name") (lih.cfg.String (str "auth.user"))) with
        | none =>
          have hs : setSession cookieHandler (lih.cfg.String (str "auth.user")) w r = w := by
            simp only [setSession, henc]
          rw [hs]
          refine ⟨fun _ => ⟨_, rfl⟩, fun h => by simp at h, ?_, ?_, fun h => absurd h hcfg⟩
          · intro q2 hq
            simp only [DecodeResult.value.injEq] at hq
            subst hq
            refine ⟨fun h => absurd h he, fun _ _ h => absurd h hm, fun _ _ _ _ => ⟨?_, fun _ => rfl⟩⟩
            intro encoded h
            simp at h
          · intro new hnew
            simp only [Option.some.injEq, List.append_cancel_left_eq] at hnew
            subst hnew
            constructor
            · exact ⟨fun _ => hcond, fun _ => by simp⟩
            · constructor
              · rintro ⟨c, h⟩; simp at h
              · rintro ⟨q2, _, _, _, _, _, encoded, h⟩
                simp at h
        | some encoded =>
          have hs : setSession cookieHandler (lih.cfg.String (str "auth.user")) w r
              = w ++ [Effect.SetCookie
                  { Name := str "session", Value := encoded, Path := str "/" }] := by
            simp only [setSession, henc]
          rw [hs, List.append_assoc]
          refine ⟨fun _ => ⟨_, rfl⟩, fun h => by simp at h, ?_, ?_, fun h => absurd h hcfg⟩
          · intro q2 hq
            simp only [DecodeResult.value.injEq] at hq
            subst hq
            refine ⟨fun h => absurd h he, fun _ _ h => absurd h hm, fun _ _ _ _ => ⟨?_, ?_⟩⟩
            · intro encoded2 h
              simp only [Option.some.injEq] at h
              subst h
              rfl
            · intro h
              simp at h
          · intro new hnew
            simp only [Option.some.injEq, List.append_cancel_left_eq] at hnew
            subst hnew
            constructor
            · exact ⟨fun _ => hcond, fun _ => by simp⟩
            · constructor
              · intro _
                obtain ⟨q2, h1, h2, h3, h4, h5⟩ := hcond
                exact ⟨q2, h1, h2, h3, h4, h5, encoded, rfl⟩
              · intro _
                exact ⟨_, List.mem_cons_self _ _⟩

end Endpoints

namespace Repo

theorem mapSet_same (m : StringMap) (key value : GoString) : mapSet m key value key = some value := by
  simp [mapSet]

theorem mapSet_other (m : StringMap) (key value k : GoString) (h : k ≠ key) :
    mapSet m key value k = m k := by
  simp [mapSet, h]

/-- When every key can be read, the loop ends without an error and has stored
under each visited key the value read for it. -/
theorem loadLoop_ok {Err : Type} (cfgString : GoString → Except Err GoString) :
    ∀ (order : List GoString) (m : StringMap),
      (∀ key ∈ order, ∃ v, cfgString key = .ok v) →
      ∃ values, loadLoop cfgString order m = .ok values
        ∧ (∀ key ∈ order, ∀ v, cfgString key = .ok v → values key = some v)
        ∧ (∀ key, key ∉ order → values key = m key) := by
  intro order
  induction order with
  | nil =>
    intro m _
    exact ⟨m, rfl, fun key h => absurd h (List.not_mem_nil key), fun _ _ => rfl⟩
  | cons k ks ih =>
    intro m hall
    obtain ⟨v, hv⟩ := hall k (List.mem_cons_self k ks)
    obtain ⟨values, hrun, hin, hout⟩ :=
      ih (mapSet m k v) (fun key hk => hall key (List.mem_cons_of_mem k hk))
    refine ⟨values, by simp only [loadLoop, hv, hrun], ?_, ?_⟩
    · intro key hkey v2 hv2
      by_cases hks : key ∈ ks
      · exact hin key hks v2 hv2
      · have hk : key = k := by
          rcases List.mem_cons.mp hkey with h | h
          · exact h
          · exact absurd h hks
        subst hk
        rw [hout key hks, mapSet_same]
        rw [hv] at hv2
        simp only [Except.ok.injEq] at hv2
        rw [hv2]
    · intro key hkey
      have h1 : key ≠ k := fun h => hkey (h ▸ List.mem_cons_self k ks)
      have h2 : key ∉ ks := fun h => hkey (List.mem_cons_of_mem k h)
      rw [hout key h2, mapSet_other m k v key h1]

/-- When some key cannot be read, the loop returns the error of one such key. -/
theorem loadLoop_error {Err : Type} (cfgString : GoString → Except Err GoString) :
    ∀ (order : List GoString) (m : StringMap),
      (∃ key ∈ order, ∃ err, cfgString key = .error err) →
      ∃ key ∈ order, ∃ err, cfgString key = .error err
        ∧ loadLoop cfgString order m = .error err := by
  intro order
  induction order with
  | nil =>
    rintro m ⟨key, hkey, _⟩
    exact absurd hkey (List.not_mem_nil key)
  | cons k ks ih =>
    rintro m ⟨key, hkey, err, herr⟩
    cases hk : cfgString k with
    | error e =>
      exact ⟨k, List.mem_cons_self k ks, e, hk, by simp only [loadLoop, hk]⟩
    | ok v =>
      have hks : key ∈ ks := by
        rcases List.mem_cons.mp hkey with h | h
        · subst h
          rw [hk] at herr
          cases herr
        · exact h
      obtain ⟨key2, hkey2, err2, herr2, hrun⟩ := ih (mapSet m k v) ⟨key, hks, err, herr⟩
      exact ⟨key2, List.mem_cons_of_mem k hkey2, err2, herr2, by simp only [loadLoop, hk, hrun]⟩

/-- C5: whatever the order in which the four keys are visited, `LoadFsRepository`
returns an error (and no repository) when the absolute path cannot be
computed, when the config at `Join(abs, ".brig", "config")` cannot be
loaded, or when one of the four keys cannot be read as a string; in every
other case it returns the repository whose `Jid`, `Mid`, `UniqueID` and
`Password` are the values of those keys, whose `Folder` is the absolute path
and whose `Config` is the loaded config. -/
theorem LoadFsRepository_cases {Cfg Err : Type} (env : Env Cfg Err) (order : List GoString)
    (folder : GoString) (horder : order.Perm configKeys) :
    (∀ err, env.Abs folder = .error err → LoadFsRepository env order folder = .error err)
    ∧ (∀ abs err, env.Abs folder = .ok abs →
        env.LoadConfig (Path.Join [abs, str ".brig", str "config"]) = .error err →
        LoadFsRepository env order folder = .error err)
    ∧ (∀ abs cfg, env.Abs folder = .ok abs →
        env.LoadConfig (Path.Join [abs, str ".brig", str "config"]) = .ok cfg →
        ((∃ key ∈ configKeys, ∃ err, env.String cfg key = .error err) →
          ∃ key ∈ configKeys, ∃ err, env.String cfg key = .error err
            ∧ LoadFsRepository env order folder = .error err)
        ∧ (∀ jid mid uuid password,
            env.String cfg (str "repository.jid") = .ok jid →
            env.String cfg (str "repository.mid") = .ok mid →
            env.String cfg (str "repository.uuid") = .ok uuid →
            env.String cfg (str "repository.password") = .ok password →
            LoadFsRepository env order folder
              = .ok { Jid := jid, Mid := mid, Folder := abs, UniqueID := uuid,
                      Password := password, Config := cfg })) := by
  refine ⟨?_, ?_, ?_⟩
  · intro err h
    simp only [LoadFsRepository, h]
  · intro abs err h1 h2
    simp only [LoadFsRepository, h1, h2]
  · intro abs cfg h1 h2
    constructor
    · rintro ⟨key, hkey, err, herr⟩
      obtain ⟨key2, hkey2, err2, herr2, hrun⟩ :=
        loadLoop_error (env.String cfg) order configValues
          ⟨key, horder.mem_iff.mpr hkey, err, herr⟩
      exact ⟨key2, horder.mem_iff.mp hkey2, err2, herr2,
        by simp only [LoadFsRepository, h1, h2, hrun]⟩
    · intro jid mid uuid password hj hm hu hp
      have hall : ∀ key ∈ order, ∃ v, env.String cfg key = .ok v := by
        intro key hkey
        have hmem := horder.mem_iff.mp hkey
        simp only [configKeys, List.mem_cons, List.mem_singleton, List.not_mem_nil,
          or_false] at hmem
        rcases hmem with h | h | h | h
        · exact ⟨jid, h ▸ hj⟩
        · exact ⟨mid, h ▸ hm⟩
        · exact ⟨uuid, h ▸ hu⟩
        · exact ⟨password, h ▸ hp⟩
      obtain ⟨values, hrun, hin, _⟩ := loadLoop_ok (env.String cfg) order configValues hall
      have hkj : str "repository.jid" ∈ order := horder.mem_iff.mpr (by simp [configKeys])
      have hkm : str "repository.mid" ∈ order := horder.mem_iff.mpr (by simp [configKeys])
      have hku : str "repository.uuid" ∈ order := horder.mem_iff.mpr (by simp [configKeys])
      have hkp : str "repository.password" ∈ order := horder.mem_iff.mpr (by simp [configKeys])
      simp only [LoadFsRepository, h1, h2, hrun, mapIndex, hin _ hkj jid hj, hin _ hkm mid hm,
        hin _ hku uuid hu, hin _ hkp password hp, Option.getD_some]

/-- Witness for C5: in the sample environment, with the keys visited in the
order mid, jid, uuid, password, the repository of `alice` is loaded. -/
theorem LoadFsRepository_cases_witness :
    sampleOrder.Perm configKeys
    ∧ LoadFsRepository sampleEnv sampleOrder (str "alice")
        = .ok { Jid := str "alice@wald.de/laptop", Mid := str "mid", Folder := str "/tmp/alice",
                UniqueID := str "uuid", Password := str "pw", Config := sampleCfg } :=
  ⟨List.Perm.swap _ _ _,
    ((LoadFsRepository_cases sampleEnv sampleOrder (str "alice") (List.Perm.swap _ _ _)).2.2
      (str "/tmp/alice") sampleCfg rfl
      (by
        have hp : Path.Join [str "/tmp/alice", str ".brig", str "config"]
            = str "/tmp/alice/.brig/config" := by decide
        rw [hp]
        rfl)).2 _ _ _ _ rfl rfl rfl rfl⟩

end Repo

namespace Remotes

/-- C2: for every registry state and identity: after a successful `Insert(i)`
(which every well-formed identity gets), `Contains(i)` is true, and after a
subsequent `Remove(i)` it is false; inserting an identity that is already
present, or removing one that is absent, returns no error and leaves the
registry as it was. -/
theorem insert_remove_contains {Identity : Type} [DecidableEq Identity]
    (wellFormed : Identity → Bool) (r : Registry Identity) (i : Identity) :
    (wellFormed i = true → ∃ r1, Insert wellFormed r i = .ok r1)
    ∧ (∀ r1, Insert wellFormed r i = .ok r1 →
        Contains r1 i = true
        ∧ ∃ r2, Remove r1 i = .ok r2 ∧ Contains r2 i = false)
    ∧ (Contains r i = true → Insert wellFormed r i = .ok r)
    ∧ (Contains r i = false → Remove r i = .ok r) := by
  refine ⟨?_, ?_, ?_, ?_⟩
  · intro hw
    unfold Insert
    by_cases h : i ∈ r
    · exact ⟨r, by simp [h]⟩
    · exact ⟨i :: r, by simp [h, hw]⟩
  · intro r1 h
    have hmem : i ∈ r1 := by
      unfold Insert at h
      by_cases hi : i ∈ r
      · simp only [if_pos hi, Except.ok.injEq] at h
        exact h ▸ hi
      · by_cases hw : wellFormed i = true
        · simp only [if_neg hi, if_pos hw, Except.ok.injEq] at h
          exact h ▸ List.mem_cons_self i r
        · simp [if_neg hi, hw] at h
    refine ⟨by simp [Contains, hmem], _, rfl, ?_⟩
    simp [Contains]
  · intro h
    have hmem : i ∈ r := by simpa [Contains] using h
    simp [Insert, hmem]
  · intro h
    have hmem : i ∉ r := by simpa [Contains] using h
    unfold Remove
    congr 1
    rw [List.filter_eq_self]
    intro j hj
    have : j ≠ i := fun e => hmem (e ▸ hj)
    simpa using this

/-- Witness for C2: peer 3 is inserted into the registry `[1, 2]` and removed
again. -/
theorem insert_remove_contains_witness :
    Insert (fun _ => true) [1, 2] (3 : Nat) = .ok [3, 1, 2]
    ∧ Contains [3, 1, 2] (3 : Nat) = true
    ∧ ∃ r2, Remove [3, 1, 2] (3 : Nat) = .ok r2 ∧ Contains r2 3 = false :=
  ⟨rfl, (insert_remove_contains (fun _ => true) [1, 2] (3 : Nat)).2.1 [3, 1, 2] rfl⟩

end Remotes

namespace Transfer

/-- C3: on a Connector in the `Connected` state, `Dial(i)` for an identity that
the Remotes registry does not contain fails with `UnauthorizedPeerError`,
yields no Session, and leaves the connector as it was: no `DialChannel` call
is recorded at the Transport Layer and no Session is registered. -/
theorem Dial_unauthorized {Identity Channel : Type} [DecidableEq Identity]
    (c : Connector Identity Channel) (i : Identity)
    (hstate : c.state = ConnectorState.Connected)
    (habsent : Remotes.Contains c.remotes i = false) :
    (c.Dial i).1 = .error DialFailure.UnauthorizedPeerError
    ∧ (c.Dial i).2.layer.dialed = c.layer.dialed
    ∧ (c.Dial i).2.sessions = c.sessions
    ∧ (c.Dial i).2.remotes = c.remotes
    ∧ (c.Dial i).2.state = c.state := by
  simp [Connector.Dial, hstate, habsent]

/-- Witness for C3: the sample connector trusts peer 2 only and dials peer 5. -/
theorem Dial_unauthorized_witness :
    sampleConnector.state = ConnectorState.Connected
    ∧ Remotes.Contains sampleConnector.remotes 5 = false
    ∧ (sampleConnector.Dial 5).1 = .error DialFailure.UnauthorizedPeerError
    ∧ (sampleConnector.Dial 5).2.layer.dialed = [] :=
  ⟨rfl, by decide,
    (Dial_unauthorized sampleConnector 5 rfl (by decide)).1,
    (Dial_unauthorized sampleConnector 5 rfl (by decide)).2.1⟩

end Transfer
